import Mathlib

/-!
Verification of the canvas / PNG-encoder core of `scripts/generate_test_images.py`.

The Python source is shallowly embedded: a pixel is a triple of natural
numbers, the mutable list-of-lists pixel grid is a `List (List Pixel)`
threaded explicitly, Python integers are `Int`, byte strings are `List Nat`,
and `zlib.compress` (an external library, not part of the repository) is a
function parameter; the binding contract stated by the spec — decompression
round-trips to the input — is a hypothesis on that parameter.
-/

/-- A pixel: red, green, blue components (Python tuples of ints, 0..255). -/
abbrev Pixel := Nat × Nat × Nat

/-- Sky color `(135,206,235)` from `Canvas.__init__`. -/
def skyColor : Pixel := (135, 206, 235)

/-- Ground color `(189,183,107)` from `Canvas.__init__`. -/
def groundColor : Pixel := (189, 183, 107)

/-- Default pixel used by the total grid accessor (never observed in bounds). -/
def defaultPixel : Pixel := (0, 0, 0)

/-- Python `range(a, b)` over integers: the list `a, a+1, ..., b-1`. -/
def intRange (a b : Int) : List Int :=
  (List.range (b - a).toNat).map (fun i : Nat => a + (i : Int))

/-- `g[y][x] = p` on a list-of-lists grid: out-of-range indices are a no-op,
matching the guarded uses in the Python source. -/
def setPix (g : List (List Pixel)) (x y : Nat) (p : Pixel) : List (List Pixel) :=
  g.set y ((g.getD y []).set x p)

/-- Total read of `g[y][x]` with a default (all verified reads are in bounds). -/
def gridGet (g : List (List Pixel)) (x y : Nat) : Pixel :=
  (g.getD y []).getD x defaultPixel

/-- The drawing canvas: width, height and the row-major pixel grid. -/
structure Canvas where
  w : Int
  h : Int
  pixels : List (List Pixel)
deriving Repr, DecidableEq

/-- `Canvas.__init__`: all-sky grid, then rows from `ground_y = int(h*0.75)`
down are overwritten with the ground color.  `int(h*0.75)` truncates toward
zero and `0.75` is exact in binary floating point, so it is `Int.tdiv (3*h) 4`
for every realizable height. -/
def Canvas.init (w h : Int) : Canvas :=
  { w := w, h := h,
    pixels :=
      (intRange (Int.tdiv (3 * h) 4) h).foldl
        (fun g y =>
          (intRange 0 w).foldl
            (fun g2 x => setPix g2 x.toNat y.toNat groundColor) g)
        (List.replicate h.toNat (List.replicate w.toNat skyColor)) }

/-- Python constructor call `Canvas(w, h)`.  The `Option` records whether the
constructor raises: the body of `Canvas.__init__` raises for no integer
arguments (comprehensions over empty ranges and the trailing loop write only
indices that exist), so it always returns a canvas. -/
def Canvas.create (w h : Int) : Option Canvas :=
  some (Canvas.init w h)

/-- Pixel read `self.pixels[y][x]` (meaningful for in-bounds coordinates). -/
def Canvas.get (c : Canvas) (x y : Int) : Pixel :=
  gridGet c.pixels x.toNat y.toNat

/-- `Canvas.set`: clipped single-pixel write. -/
def Canvas.set (c : Canvas) (x y : Int) (color : Pixel) : Canvas :=
  if 0 ≤ x ∧ x < c.w ∧ 0 ≤ y ∧ y < c.h then
    { c with pixels := setPix c.pixels x.toNat y.toNat color }
  else c

/-- `Canvas.rect`: fill rows `max(0,y0) ≤ y < min(h,y1)`, columns
`max(0,x0) ≤ x < min(w,x1)`. -/
def Canvas.rect (c : Canvas) (x0 y0 x1 y1 : Int) (color : Pixel) : Canvas :=
  let g' :=
    (intRange (max 0 y0) (min c.h y1)).foldl
      (fun g y =>
        (intRange (max 0 x0) (min c.w x1)).foldl
          (fun g2 x => setPix g2 x.toNat y.toNat color) g)
      c.pixels
  { c with pixels := g' }

/-- `Canvas.circle`: scan the half-open box `[cx-r, cx+r) × [cy-r, cy+r)` and
fill in-bounds pixels with `(x-cx)**2 + (y-cy)**2 <= r*r`. -/
def Canvas.circle (c : Canvas) (cx cy r : Int) (color : Pixel) : Canvas :=
  let g' :=
    (intRange (cy - r) (cy + r)).foldl
      (fun g y =>
        (intRange (cx - r) (cx + r)).foldl
          (fun g2 x =>
            if 0 ≤ x ∧ x < c.w ∧ 0 ≤ y ∧ y < c.h then
              if (x - cx) ^ 2 + (y - cy) ^ 2 ≤ r * r then
                setPix g2 x.toNat y.toNat color
              else g2
            else g2) g)
      c.pixels
  { c with pixels := g' }

/-- One-step-per-iteration Bresenham loop of `Canvas.line`, with explicit fuel
(one unit per iteration of the Python `while True`); it also returns the list
of plotted coordinates in order. -/
def lineLoop (x1 y1 dx dy sx sy : Int) (color : Pixel) :
    Nat → Int → Int → Int → Canvas → List (Int × Int) →
    Option (Canvas × List (Int × Int))
  | 0, _, _, _, _, _ => none
  | n + 1, x0, y0, err, c, pts =>
    let c' := c.set x0 y0 color
    let pts' := pts ++ [(x0, y0)]
    if x0 = x1 ∧ y0 = y1 then some (c', pts')
    else
      let e2 := 2 * err
      let p1 : Int × Int := if dy ≤ e2 then (err + dy, x0 + sx) else (err, x0)
      let p2 : Int × Int := if e2 ≤ dx then (p1.1 + dx, y0 + sy) else (p1.1, y0)
      lineLoop x1 y1 dx dy sx sy color n p1.2 p2.2 p2.1 c' pts'

/-- `Canvas.line`: Bresenham line.  Fuel `|x1-x0| + |y1-y0| + 1` is proved
sufficient below, so the `Option` is always `some`. -/
def Canvas.line (c : Canvas) (x0 y0 x1 y1 : Int) (color : Pixel) :
    Option (Canvas × List (Int × Int)) :=
  let dx := |x1 - x0|
  let dy := -|y1 - y0|
  let sx : Int := if x0 < x1 then 1 else -1
  let sy : Int := if y0 < y1 then 1 else -1
  lineLoop x1 y1 dx dy sx sy color ((dx - dy).toNat + 1) x0 y0 (dx + dy) c []

/-- Shape invariant of a canvas: `h` rows, each of length `w`. -/
def Canvas.WF (c : Canvas) : Prop :=
  c.pixels.length = c.h.toNat ∧
    ∀ i < c.pixels.length, (c.pixels.getD i []).length = c.w.toNat

instance (c : Canvas) : Decidable c.WF := by
  unfold Canvas.WF; infer_instance

/-- `struct.pack('>I', n)` for `n < 2^32`: 4 big-endian bytes. -/
def be32 (n : Nat) : List Nat :=
  [n / 2 ^ 24 % 256, n / 2 ^ 16 % 256, n / 2 ^ 8 % 256, n % 256]

/-- One bit step of the reflected CRC-32. -/
def crc32Round (c : Nat) : Nat :=
  if c % 2 = 1 then Nat.xor (c / 2) 0xEDB88320 else c / 2

/-- One byte step of CRC-32: xor in the byte, then eight bit steps. -/
def crc32Byte (c b : Nat) : Nat :=
  crc32Round (crc32Round (crc32Round (crc32Round
    (crc32Round (crc32Round (crc32Round (crc32Round (Nat.xor c b))))))))

/-- Modelled from the spec: `zlib.crc32` (the Python standard library, not in
this repository) — "CRC32 must use the standard IEEE polynomial (bit-reversed
0xEDB88320 table or equivalent)": the reflected CRC-32 with init and final
xor `0xFFFFFFFF`. -/
def crc32 (data : List Nat) : Nat :=
  Nat.xor (data.foldl crc32Byte 0xFFFFFFFF) 0xFFFFFFFF

/-- The `chunk` function: length, tag, payload, CRC over tag+payload
(`& 0xffffffff` becomes `% 2^32`). -/
def chunk (tag data : List Nat) : List Nat :=
  be32 data.length ++ tag ++ data ++ be32 (crc32 (tag ++ data) % 2 ^ 32)

/-- PNG signature `b'\x89PNG\r\n\x1a\n'`. -/
def pngSignature : List Nat := [0x89, 0x50, 0x4E, 0x47, 0x0D, 0x0A, 0x1A, 0x0A]

/-- ASCII bytes of `b'IHDR'`. -/
def ihdrTag : List Nat := [0x49, 0x48, 0x44, 0x52]

/-- ASCII bytes of `b'IDAT'`. -/
def idatTag : List Nat := [0x49, 0x44, 0x41, 0x54]

/-- ASCII bytes of `b'IEND'`. -/
def iendTag : List Nat := [0x49, 0x45, 0x4E, 0x44]

/-- The three bytes of one pixel, in R,G,B order. -/
def pixelBytes (p : Pixel) : List Nat := [p.1, p.2.1, p.2.2]

/-- The raw scanline buffer built by `write_png`:
`raw += b'\x00' + bytes([c for rgb in row for c in rgb])` per row. -/
def rawData (c : Canvas) : List Nat :=
  c.pixels.foldl (fun acc row => acc ++ 0 :: row.foldl (fun bs p => bs ++ pixelBytes p) []) []

/-- `write_png` without the file system: the byte sequence written to the
file.  `compress` stands for `zlib.compress`. -/
def write_png (compress : List Nat → List Nat) (c : Canvas) : List Nat :=
  pngSignature
    ++ chunk ihdrTag (be32 c.w.toNat ++ be32 c.h.toNat ++ [8, 2, 0, 0, 0])
    ++ chunk idatTag (compress (rawData c))
    ++ chunk iendTag []

/-- Big-endian read of the first four bytes. -/
def readBe32 : List Nat → Nat
  | b0 :: b1 :: b2 :: b3 :: _ => ((b0 * 256 + b1) * 256 + b2) * 256 + b3
  | _ => 0

/-- Structural parser for a PNG chunk sequence: returns the list of
(tag, payload, stored CRC field) triples, or `none` on a framing error. -/
def parseChunks (bs : List Nat) : Option (List (List Nat × List Nat × Nat)) :=
  if h1 : bs = [] then some []
  else if h2 : bs.length < 12 then none
  else if h3 : (bs.drop 8).length < readBe32 bs + 4 then none
  else
    match parseChunks ((bs.drop 8).drop (readBe32 bs + 4)) with
    | some rest =>
      some (((bs.drop 4).take 4, (bs.drop 8).take (readBe32 bs),
             readBe32 ((bs.drop 8).drop (readBe32 bs))) :: rest)
    | none => none
termination_by bs.length
decreasing_by
  simp only [List.length_drop]
  have : bs.length ≠ 0 := fun h => h1 (List.eq_nil_of_length_eq_zero h)
  omega

/-- The payload of the IDAT chunk of a PNG byte stream, when it parses. -/
def idatPayload (png : List Nat) : Option (List Nat) :=
  match parseChunks (png.drop 8) with
  | some l => (l.find? (fun e => e.1 == idatTag)).map (fun e => e.2.1)
  | none => none

/-- Concatenation of a list of byte strings. -/
def concatAll (l : List (List Nat)) : List Nat := l.foldr (· ++ ·) []

/-- The bytes of one row, pixels left to right, 3 bytes each. -/
def rowBytes (row : List Pixel) : List Nat := concatAll (row.map pixelBytes)

/-- Modelled from the spec: the scanline buffer layout the claims describe —
"for each row top-to-bottom, one filter-type byte equal to 0, followed by the
row's pixels each as 3 consecutive bytes (R,G,B) in left-to-right order". -/
def scanlinesSpec (c : Canvas) : List Nat :=
  concatAll (c.pixels.map (fun row => 0 :: rowBytes row))

/-- Group a byte string into pixels of 3 bytes each. -/
def bytesToPixels : List Nat → Option (List Pixel)
  | [] => some []
  | r :: g :: b :: rest => (bytesToPixels rest).map (fun l => (r, g, b) :: l)
  | _ => none

/-- Modelled from the spec: the scanline-reconstruction step of a
standards-compliant decoder for a filter-0, 8-bit truecolor image — each of
the `h` scanlines must begin with filter byte 0 followed by `3*w` pixel
bytes, which are the row's pixels in order. -/
def decodeScanlines (w : Nat) : Nat → List Nat → Option (List (List Pixel))
  | 0, [] => some []
  | 0, _ :: _ => none
  | hh + 1, bs =>
    match bs with
    | 0 :: rest =>
      if 3 * w ≤ rest.length then
        match bytesToPixels (rest.take (3 * w)), decodeScanlines w hh (rest.drop (3 * w)) with
        | some row, some rows => some (row :: rows)
        | _, _ => none
      else none
    | _ => none

/-- Two grids with the same number of rows and the same row lengths. -/
def sameShape (g g' : List (List Pixel)) : Prop :=
  g'.length = g.length ∧ ∀ i : Nat, (g'.getD i []).length = (g.getD i []).length

/-- Modelled from the spec (claim C2 wording): the exact output layout —
signature, IHDR chunk with the 13-byte payload
`w BE ‖ h BE ‖ 8 ‖ 2 ‖ 0 ‖ 0 ‖ 0`, one IDAT chunk, an empty IEND chunk,
nothing else.  Each chunk spelled out as length ‖ tag ‖ payload ‖ CRC. -/
def pngLayoutSpec (compress : List Nat → List Nat) (c : Canvas) : List Nat :=
  [0x89, 0x50, 0x4E, 0x47, 0x0D, 0x0A, 0x1A, 0x0A]
    ++ (be32 13 ++ [0x49, 0x48, 0x44, 0x52]
        ++ (be32 c.w.toNat ++ be32 c.h.toNat ++ [8, 2, 0, 0, 0])
        ++ be32 (crc32 ([0x49, 0x48, 0x44, 0x52]
             ++ (be32 c.w.toNat ++ be32 c.h.toNat ++ [8, 2, 0, 0, 0])) % 2 ^ 32))
    ++ (be32 (compress (rawData c)).length ++ [0x49, 0x44, 0x41, 0x54]
        ++ compress (rawData c)
        ++ be32 (crc32 ([0x49, 0x44, 0x41, 0x54] ++ compress (rawData c)) % 2 ^ 32))
    ++ (be32 0 ++ [0x49, 0x45, 0x4E, 0x44]
        ++ be32 (crc32 [0x49, 0x45, 0x4E, 0x44] % 2 ^ 32))

/-! ## Basic list and grid lemmas -/

theorem getD_set_self {α : Type} (l : List α) (i : Nat) (a d : α) (h : i < l.length) :
    (l.set i a).getD i d = a := by
  simp [List.getD_eq_getElem?_getD, List.getElem?_set_self, h]

theorem getD_set_ne {α : Type} (l : List α) (i j : Nat) (a d : α) (h : i ≠ j) :
    (l.set i a).getD j d = l.getD j d := by
  simp [List.getD_eq_getElem?_getD, List.getElem?_set_ne h]

theorem set_getD_self {α : Type} (l : List α) (n : Nat) (d : α) :
    l.set n (l.getD n d) = l := by
  induction l generalizing n with
  | nil => rfl
  | cons a l ih =>
    cases n with
    | zero => simp [List.getD_cons_zero]
    | succ n => rw [List.getD_cons_succ, List.set_cons_succ, ih]

theorem setPix_length (g : List (List Pixel)) (x y : Nat) (p : Pixel) :
    (setPix g x y p).length = g.length := by
  simp [setPix]

theorem setPix_oob_y (g : List (List Pixel)) (x y : Nat) (p : Pixel)
    (h : g.length ≤ y) : setPix g x y p = g := by
  simp [setPix, List.set_eq_of_length_le h]

theorem setPix_oob_x (g : List (List Pixel)) (x y : Nat) (p : Pixel)
    (h : (g.getD y []).length ≤ x) : setPix g x y p = g := by
  rw [setPix, List.set_eq_of_length_le h, set_getD_self]

theorem setPix_rowlen (g : List (List Pixel)) (x y : Nat) (p : Pixel) (i : Nat) :
    ((setPix g x y p).getD i []).length = (g.getD i []).length := by
  unfold setPix
  by_cases hiy : y = i
  · subst hiy
    by_cases hy : y < g.length
    · rw [getD_set_self _ _ _ _ hy, List.length_set]
    · rw [List.set_eq_of_length_le (le_of_not_lt hy)]
  · rw [getD_set_ne _ _ _ _ _ hiy]

theorem setPix_get_eq (g : List (List Pixel)) (x y : Nat) (p : Pixel)
    (hy : y < g.length) (hx : x < (g.getD y []).length) :
    gridGet (setPix g x y p) x y = p := by
  rw [gridGet, setPix, getD_set_self _ _ _ _ hy, getD_set_self _ _ _ _ hx]

theorem setPix_get_ne (g : List (List Pixel)) (x y : Nat) (p : Pixel) (x' y' : Nat)
    (h : x' ≠ x ∨ y' ≠ y) :
    gridGet (setPix g x y p) x' y' = gridGet g x' y' := by
  unfold gridGet setPix
  by_cases hy : y' = y
  · subst hy
    have hx : x' ≠ x := h.resolve_right (fun hc => hc rfl)
    by_cases hlen : y' < g.length
    · rw [getD_set_self _ _ _ _ hlen, getD_set_ne _ _ _ _ _ (Ne.symm hx)]
    · rw [List.set_eq_of_length_le (le_of_not_lt hlen)]
  · rw [getD_set_ne _ _ _ _ _ (fun hc => hy hc.symm)]

theorem setPix_get_oob (g : List (List Pixel)) (x y : Nat) (p : Pixel) (x' y' : Nat)
    (h : (g.getD y []).length ≤ x) :
    gridGet (setPix g x y p) x' y' = gridGet g x' y' := by
  rw [setPix_oob_x _ _ _ _ h]

theorem sameShape_refl (g : List (List Pixel)) : sameShape g g := ⟨rfl, fun _ => rfl⟩

theorem sameShape_trans {g1 g2 g3 : List (List Pixel)}
    (h12 : sameShape g1 g2) (h23 : sameShape g2 g3) : sameShape g1 g3 :=
  ⟨h23.1.trans h12.1, fun i => (h23.2 i).trans (h12.2 i)⟩

theorem setPix_shape (g : List (List Pixel)) (x y : Nat) (p : Pixel) :
    sameShape g (setPix g x y p) :=
  ⟨setPix_length g x y p, setPix_rowlen g x y p⟩

theorem foldl_shape {β : Type} (step : List (List Pixel) → β → List (List Pixel))
    (hstep : ∀ g b, sameShape g (step g b)) :
    ∀ (l : List β) (g : List (List Pixel)), sameShape g (l.foldl step g) := by
  intro l
  induction l with
  | nil => intro g; exact sameShape_refl g
  | cons b l ih =>
    intro g
    rw [List.foldl_cons]
    exact sameShape_trans (hstep g b) (ih (step g b))

theorem setPix_get_unchanged (g : List (List Pixel)) (x y : Nat) (p : Pixel) (x' y' : Nat)
    (h : ¬(y' = y ∧ y < g.length ∧ x' < (g.getD y []).length ∧ x = x')) :
    gridGet (setPix g x y p) x' y' = gridGet g x' y' := by
  by_cases hy : y' = y
  · subst hy
    by_cases hlen : y' < g.length
    · by_cases hxl : x' < (g.getD y' []).length
      · have hx : x ≠ x' := fun hc => h ⟨rfl, hlen, hxl, hc⟩
        exact setPix_get_ne _ _ _ _ _ _ (Or.inl (Ne.symm hx))
      · by_cases hxx : x = x'
        · subst hxx; exact setPix_get_oob _ _ _ _ _ _ (le_of_not_lt hxl)
        · exact setPix_get_ne _ _ _ _ _ _ (Or.inl (Ne.symm hxx))
    · rw [setPix_oob_y _ _ _ _ (le_of_not_lt hlen)]
  · exact setPix_get_ne _ _ _ _ _ _ (Or.inr hy)

theorem innerFold_get (Q : Int → Prop) [DecidablePred Q] (yN : Nat) (color : Pixel) :
    ∀ (xs : List Int) (g : List (List Pixel)) (x' y' : Nat),
    gridGet (xs.foldl (fun g2 x => if Q x then setPix g2 x.toNat yN color else g2) g) x' y' =
      if y' = yN ∧ yN < g.length ∧ x' < (g.getD yN []).length ∧ ∃ x ∈ xs, Q x ∧ x.toNat = x'
      then color else gridGet g x' y' := by
  intro xs
  induction xs with
  | nil =>
    intro g x' y'
    simp
  | cons x xs ih =>
    intro g x' y'
    rw [List.foldl_cons]
    by_cases hQ : Q x
    · simp only [if_pos hQ]
      rw [ih]
      simp only [setPix_length, setPix_rowlen]
      split_ifs with h1 h2 h2
      · rfl
      · obtain ⟨ha, hb, hc, z, hz, hq⟩ := h1
        exact absurd ⟨ha, hb, hc, z, List.mem_cons_of_mem x hz, hq⟩ h2
      · obtain ⟨ha, hb, hc, z, hz, hq⟩ := h2
        rcases List.mem_cons.mp hz with hzx | hzm
        · subst hzx
          subst ha
          rw [← hq.2] at hc ⊢
          exact setPix_get_eq _ _ _ _ hb hc
        · exact absurd ⟨ha, hb, hc, z, hzm, hq⟩ h1
      · apply setPix_get_unchanged
        intro ⟨ha, hb, hc, hx⟩
        exact h2 ⟨ha, hb, hc, x, List.mem_cons_self x xs, hQ, hx⟩
    · simp only [if_neg hQ]
      rw [ih]
      split_ifs with h1 h2 h2
      · rfl
      · obtain ⟨ha, hb, hc, z, hz, hq⟩ := h1
        exact absurd ⟨ha, hb, hc, z, List.mem_cons_of_mem x hz, hq⟩ h2
      · obtain ⟨ha, hb, hc, z, hz, hq⟩ := h2
        rcases List.mem_cons.mp hz with hzx | hzm
        · subst hzx; exact absurd hq.1 hQ
        · exact absurd ⟨ha, hb, hc, z, hzm, hq⟩ h1
      · rfl

theorem innerFold_shape (Q : Int → Prop) [DecidablePred Q] (yN : Nat) (color : Pixel)
    (xs : List Int) (g : List (List Pixel)) :
    sameShape g (xs.foldl (fun g2 x => if Q x then setPix g2 x.toNat yN color else g2) g) := by
  apply foldl_shape
  intro g2 x
  by_cases hQ : Q x
  · rw [if_pos hQ]; exact setPix_shape _ _ _ _
  · rw [if_neg hQ]; exact sameShape_refl _

theorem outerFold_get (guard : Int → Int → Prop) [∀ x y, Decidable (guard x y)]
    (color : Pixel) :
    ∀ (ys xs : List Int) (g : List (List Pixel)) (x' y' : Nat),
    gridGet (ys.foldl (fun g y =>
        xs.foldl (fun g2 x => if guard x y then setPix g2 x.toNat y.toNat color else g2) g)
      g) x' y' =
      if ∃ y ∈ ys, y.toNat = y' ∧ y.toNat < g.length ∧ x' < (g.getD y.toNat []).length ∧
           ∃ x ∈ xs, guard x y ∧ x.toNat = x'
      then color else gridGet g x' y' := by
  intro ys
  induction ys with
  | nil =>
    intro xs g x' y'
    simp
  | cons y ys ih =>
    intro xs g x' y'
    rw [List.foldl_cons, ih]
    have hshape := innerFold_shape (fun x => guard x y) y.toNat color xs g
    simp only [hshape.1, hshape.2]
    split_ifs with h1 h2 h2
    · rfl
    · obtain ⟨z, hz, hq⟩ := h1
      exact absurd ⟨z, List.mem_cons_of_mem y hz, hq⟩ h2
    · rw [innerFold_get]
      obtain ⟨z, hz, ha, hb, hc, hx⟩ := h2
      rcases List.mem_cons.mp hz with hzy | hzm
      · subst hzy
        rw [if_pos ⟨ha.symm, hb, hc, hx⟩]
      · exact absurd ⟨z, hzm, ha, hb, hc, hx⟩ h1
    · rw [innerFold_get]
      rw [if_neg]
      intro ⟨ha, hb, hc, x, hx, hg, hxe⟩
      exact h2 ⟨y, List.mem_cons_self y ys, ha.symm, hb, hc, x, hx, hg, hxe⟩

/-! ## intRange and replicate lemmas -/

theorem mem_intRange {a b x : Int} : x ∈ intRange a b ↔ a ≤ x ∧ x < b := by
  simp only [intRange, List.mem_map, List.mem_range]
  constructor
  · rintro ⟨i, hi, rfl⟩
    omega
  · intro ⟨h1, h2⟩
    exact ⟨(x - a).toNat, by omega, by omega⟩

theorem intRange_nil {a b : Int} (h : b ≤ a) : intRange a b = [] := by
  simp [intRange, List.range_eq_nil]
  omega

theorem getD_replicate {α : Type} (n : Nat) (a d : α) (i : Nat) (h : i < n) :
    (List.replicate n a).getD i d = a := by
  simp [List.getD_eq_getElem?_getD, List.getElem?_replicate, h]

/-! ## Unguarded double fold, and pixel characterizations of the operations -/

theorem outerFold_get_plain (color : Pixel) (ys xs : List Int)
    (g : List (List Pixel)) (x' y' : Nat) :
    gridGet (ys.foldl (fun g y =>
        xs.foldl (fun g2 x => setPix g2 x.toNat y.toNat color) g) g) x' y' =
      if ∃ y ∈ ys, y.toNat = y' ∧ y.toNat < g.length ∧ x' < (g.getD y.toNat []).length ∧
           ∃ x ∈ xs, x.toNat = x'
      then color else gridGet g x' y' := by
  have h1 : (fun (g : List (List Pixel)) (y : Int) =>
        xs.foldl (fun g2 x => setPix g2 x.toNat y.toNat color) g)
      = (fun g y => xs.foldl
          (fun g2 x => if (fun (_ _ : Int) => True) x y then setPix g2 x.toNat y.toNat color
            else g2) g) := by
    funext g y
    simp
  rw [h1, outerFold_get (fun _ _ => True) color ys xs g x' y']
  simp only [true_and]

theorem rect_get (c : Canvas) (hwf : c.WF) (x0 y0 x1 y1 : Int) (color : Pixel)
    (x y : Int) (hx0 : 0 ≤ x) (hx : x < c.w) (hy0 : 0 ≤ y) (hy : y < c.h) :
    (c.rect x0 y0 x1 y1 color).get x y =
      if x0 ≤ x ∧ x < x1 ∧ y0 ≤ y ∧ y < y1 then color else c.get x y := by
  have hlen : c.pixels.length = c.h.toNat := hwf.1
  have hrow : (c.pixels.getD y.toNat []).length = c.w.toNat := hwf.2 _ (by omega)
  simp only [Canvas.rect, Canvas.get]
  rw [outerFold_get_plain]
  refine if_congr ?_ rfl rfl
  constructor
  · rintro ⟨yy, hyy, hyt, -, -, xx, hxx, hxt⟩
    rw [mem_intRange] at hyy hxx
    omega
  · intro ⟨h1, h2, h3, h4⟩
    refine ⟨y, mem_intRange.mpr ⟨by omega, by omega⟩, rfl, by omega, ?_,
      x, mem_intRange.mpr ⟨by omega, by omega⟩, rfl⟩
    omega

theorem init_get (w h : Int) (x y : Int)
    (hx0 : 0 ≤ x) (hx : x < w) (hy0 : 0 ≤ y) (hy : y < h) :
    (Canvas.init w h).get x y =
      if Int.tdiv (3 * h) 4 ≤ y then groundColor else skyColor := by
  simp only [Canvas.init, Canvas.get]
  rw [outerFold_get_plain]
  have hlen : (List.replicate h.toNat (List.replicate w.toNat skyColor)).length = h.toNat :=
    List.length_replicate ..
  have hrow : ((List.replicate h.toNat (List.replicate w.toNat skyColor)).getD y.toNat []).length
      = w.toNat := by
    rw [getD_replicate _ _ _ _ (by omega), List.length_replicate]
  have hsky : gridGet (List.replicate h.toNat (List.replicate w.toNat skyColor)) x.toNat y.toNat
      = skyColor := by
    rw [gridGet, getD_replicate _ _ _ _ (by omega), getD_replicate _ _ _ _ (by omega)]
  rw [hsky]
  refine if_congr ?_ rfl rfl
  constructor
  · rintro ⟨yy, hyy, hyt, -, -, xx, hxx, hxt⟩
    rw [mem_intRange] at hyy hxx
    omega
  · intro hgy
    refine ⟨y, mem_intRange.mpr ⟨by omega, by omega⟩, rfl, by omega, ?_,
      x, mem_intRange.mpr ⟨by omega, by omega⟩, rfl⟩
    omega

theorem circle_get (c : Canvas) (hwf : c.WF) (cx cy r : Int) (color : Pixel)
    (x y : Int) (hx0 : 0 ≤ x) (hx : x < c.w) (hy0 : 0 ≤ y) (hy : y < c.h) :
    (c.circle cx cy r color).get x y =
      if cx - r ≤ x ∧ x < cx + r ∧ cy - r ≤ y ∧ y < cy + r ∧
          (x - cx) ^ 2 + (y - cy) ^ 2 ≤ r * r
      then color else c.get x y := by
  have hlen : c.pixels.length = c.h.toNat := hwf.1
  have hrow : (c.pixels.getD y.toNat []).length = c.w.toNat := hwf.2 _ (by omega)
  simp only [Canvas.circle, Canvas.get]
  have hfn : (fun (g : List (List Pixel)) (yy : Int) =>
        (intRange (cx - r) (cx + r)).foldl
          (fun g2 xx =>
            if 0 ≤ xx ∧ xx < c.w ∧ 0 ≤ yy ∧ yy < c.h then
              if (xx - cx) ^ 2 + (yy - cy) ^ 2 ≤ r * r then
                setPix g2 xx.toNat yy.toNat color
              else g2
            else g2) g)
      = (fun g yy => (intRange (cx - r) (cx + r)).foldl
          (fun g2 xx =>
            if (fun (xx yy : Int) =>
                  (0 ≤ xx ∧ xx < c.w ∧ 0 ≤ yy ∧ yy < c.h) ∧
                    (xx - cx) ^ 2 + (yy - cy) ^ 2 ≤ r * r) xx yy then
              setPix g2 xx.toNat yy.toNat color
            else g2) g) := by
    funext g yy
    congr 1
    funext g2 xx
    by_cases h1 : 0 ≤ xx ∧ xx < c.w ∧ 0 ≤ yy ∧ yy < c.h
    · by_cases h2 : (xx - cx) ^ 2 + (yy - cy) ^ 2 ≤ r * r <;> simp [h1, h2]
    · simp [h1]
  rw [hfn, outerFold_get]
  refine if_congr ?_ rfl rfl
  constructor
  · rintro ⟨yy, hyy, hyt, -, -, xx, hxx, ⟨⟨hb1, hb2, hb3, hb4⟩, hdisk⟩, hxt⟩
    rw [mem_intRange] at hyy hxx
    have hyye : yy = y := by omega
    have hxxe : xx = x := by omega
    subst hyye
    subst hxxe
    exact ⟨by omega, by omega, by omega, by omega, hdisk⟩
  · intro ⟨h1, h2, h3, h4, hdisk⟩
    exact ⟨y, mem_intRange.mpr ⟨h3, h4⟩, rfl, by omega, by omega,
      x, mem_intRange.mpr ⟨h1, h2⟩, ⟨⟨hx0, hx, hy0, hy⟩, hdisk⟩, rfl⟩

theorem circle_nop (c : Canvas) (cx cy r : Int) (color : Pixel) (hr : r ≤ 0) :
    c.circle cx cy r color = c := by
  have hnil : intRange (cy - r) (cy + r) = [] := intRange_nil (by omega)
  simp [Canvas.circle, hnil]

/-! ## Shape preservation of the mutating operations -/

theorem WF_mk (c : Canvas) (g' : List (List Pixel)) (hwf : c.WF)
    (hs : sameShape c.pixels g') :
    Canvas.WF { w := c.w, h := c.h, pixels := g' } := by
  obtain ⟨h1, h2⟩ := hwf
  refine ⟨hs.1.trans h1, ?_⟩
  intro i hi
  rw [hs.2 i]
  exact h2 i (by rw [← hs.1]; exact hi)

theorem set_dims (c : Canvas) (x y : Int) (color : Pixel) :
    (c.set x y color).w = c.w ∧ (c.set x y color).h = c.h := by
  unfold Canvas.set
  split_ifs <;> exact ⟨rfl, rfl⟩

theorem set_WF (c : Canvas) (hwf : c.WF) (x y : Int) (color : Pixel) :
    (c.set x y color).WF := by
  unfold Canvas.set
  split_ifs with h
  · exact WF_mk c _ hwf (setPix_shape ..)
  · exact hwf

theorem rect_shape (c : Canvas) (x0 y0 x1 y1 : Int) (color : Pixel) :
    sameShape c.pixels (c.rect x0 y0 x1 y1 color).pixels := by
  simp only [Canvas.rect]
  apply foldl_shape
  intro g y
  apply foldl_shape
  intro g2 x
  exact setPix_shape ..

theorem rect_WF (c : Canvas) (hwf : c.WF) (x0 y0 x1 y1 : Int) (color : Pixel) :
    (c.rect x0 y0 x1 y1 color).WF :=
  WF_mk c _ hwf (rect_shape c x0 y0 x1 y1 color)

theorem circle_shape (c : Canvas) (cx cy r : Int) (color : Pixel) :
    sameShape c.pixels (c.circle cx cy r color).pixels := by
  simp only [Canvas.circle]
  apply foldl_shape
  intro g y
  apply foldl_shape
  intro g2 x
  by_cases h1 : 0 ≤ x ∧ x < c.w ∧ 0 ≤ y ∧ y < c.h
  · rw [if_pos h1]
    by_cases h2 : (x - cx) ^ 2 + (y - cy) ^ 2 ≤ r * r
    · rw [if_pos h2]; exact setPix_shape ..
    · rw [if_neg h2]; exact sameShape_refl _
  · rw [if_neg h1]; exact sameShape_refl _

theorem circle_WF (c : Canvas) (hwf : c.WF) (cx cy r : Int) (color : Pixel) :
    (c.circle cx cy r color).WF :=
  WF_mk c _ hwf (circle_shape c cx cy r color)

theorem init_shape (w h : Int) :
    sameShape (List.replicate h.toNat (List.replicate w.toNat skyColor))
      (Canvas.init w h).pixels := by
  simp only [Canvas.init]
  apply foldl_shape
  intro g y
  apply foldl_shape
  intro g2 x
  exact setPix_shape ..

theorem init_WF (w h : Int) : (Canvas.init w h).WF := by
  have hs := init_shape w h
  constructor
  · rw [hs.1, List.length_replicate]
    rfl
  · intro i hi
    rw [hs.1, List.length_replicate] at hi
    rw [hs.2 i, getD_replicate _ _ _ _ hi, List.length_replicate]
    rfl

theorem lineLoop_preserves (x1 y1 dx dy sx sy : Int) (color : Pixel) :
    ∀ (n : Nat) (x0 y0 err : Int) (c : Canvas) (pts : List (Int × Int))
      (c' : Canvas) (pts' : List (Int × Int)),
      lineLoop x1 y1 dx dy sx sy color n x0 y0 err c pts = some (c', pts') →
      c'.w = c.w ∧ c'.h = c.h ∧ (c.WF → c'.WF) := by
  intro n
  induction n with
  | zero =>
    intro x0 y0 err c pts c' pts' h
    simp [lineLoop] at h
  | succ n ih =>
    intro x0 y0 err c pts c' pts' h
    simp only [lineLoop] at h
    have hdw := (set_dims c x0 y0 color).1
    have hdh := (set_dims c x0 y0 color).2
    split_ifs at h with h1 h2 h3 h3
    · obtain ⟨hc, -⟩ := Prod.mk.injEq .. ▸ Option.some.injEq .. ▸ h
      subst hc
      exact ⟨hdw, hdh, fun hwf => set_WF c hwf x0 y0 color⟩
    all_goals {
      obtain ⟨e1, e2, e3⟩ := ih _ _ _ _ _ _ _ h
      exact ⟨e1.trans hdw, e2.trans hdh,
        fun hwf => e3 (set_WF c hwf x0 y0 color)⟩
    }

/-! ## Termination of the Bresenham loop

Invariant: after some iterations the state is `(x1 - a*sx, y1 - b*sy)` with
`a` (resp. `b`) the remaining axis distance, `0 ≤ a ≤ dx`, `0 ≤ b ≤ e`, and
`err = dx - e + e*a - dx*b`.  Each iteration decreases `a + b` by at least 1,
and the step guards can never push `a` or `b` below zero. -/

theorem lineLoop_reaches (x1 y1 dx e sx sy : Int) (color : Pixel)
    (hdx : 0 ≤ dx) (he : 0 ≤ e) (hsx : sx = 1 ∨ sx = -1) (hsy : sy = 1 ∨ sy = -1) :
    ∀ (n : Nat) (a b : Int), 0 ≤ a → a ≤ dx → 0 ≤ b → b ≤ e → a + b ≤ (n : Int) →
    ∀ (c : Canvas) (pts : List (Int × Int)),
    ∃ c' pts', lineLoop x1 y1 dx (-e) sx sy color (n + 1) (x1 - a * sx) (y1 - b * sy)
        (dx - e + e * a - dx * b) c pts = some (c', pts') ∧
      pts'.getLast? = some (x1, y1) := by
  intro n
  induction n with
  | zero =>
    intro a b ha0 had hb0 hbe hab c pts
    have ha : a = 0 := by omega
    have hb : b = 0 := by omega
    subst ha
    subst hb
    simp only [lineLoop]
    rw [show x1 - 0 * sx = x1 from by ring, show y1 - 0 * sy = y1 from by ring]
    rw [if_pos ⟨rfl, rfl⟩]
    exact ⟨_, _, rfl, List.getLast?_concat _⟩
  | succ n ih =>
    intro a b ha0 had hb0 hbe hab c pts
    by_cases hz : a = 0 ∧ b = 0
    · obtain ⟨ha, hb⟩ := hz
      subst ha
      subst hb
      simp only [lineLoop]
      rw [show x1 - 0 * sx = x1 from by ring, show y1 - 0 * sy = y1 from by ring]
      rw [if_pos ⟨rfl, rfl⟩]
      exact ⟨_, _, rfl, List.getLast?_concat _⟩
    · have hsx0 : sx ≠ 0 := by rcases hsx with h | h <;> simp [h]
      have hsy0 : sy ≠ 0 := by rcases hsy with h | h <;> simp [h]
      have hcond : ¬(x1 - a * sx = x1 ∧ y1 - b * sy = y1) := by
        intro ⟨h1, h2⟩
        have ha : a * sx = 0 := by omega
        have hb : b * sy = 0 := by omega
        rcases mul_eq_zero.mp ha with ha' | ha'
        · rcases mul_eq_zero.mp hb with hb' | hb'
          · exact hz ⟨ha', hb'⟩
          · exact hsy0 hb'
        · exact hsx0 ha'
      simp only [lineLoop]
      rw [if_neg hcond]
      by_cases hX : -e ≤ 2 * (dx - e + e * a - dx * b)
      · by_cases hY : 2 * (dx - e + e * a - dx * b) ≤ dx
        · -- both axes step
          have ha1 : 1 ≤ a := by
            by_contra hc
            have ha : a = 0 := by omega
            have hb1 : 1 ≤ b := by
              rcases eq_or_ne b 0 with hb | hb
              · exact absurd ⟨ha, hb⟩ hz
              · omega
            rw [ha] at hX
            have hmul : dx * 1 ≤ dx * b := mul_le_mul_of_nonneg_left hb1 hdx
            linarith
          have hb1 : 1 ≤ b := by
            by_contra hc
            have hb : b = 0 := by omega
            have ha1 : 1 ≤ a := by
              rcases eq_or_ne a 0 with ha | ha
              · exact absurd ⟨ha, hb⟩ hz
              · omega
            rw [hb] at hY
            have hmul : e * 1 ≤ e * a := mul_le_mul_of_nonneg_left ha1 he
            linarith
          simp only [if_pos hX, if_pos hY]
          rw [show x1 - a * sx + sx = x1 - (a - 1) * sx from by ring,
              show y1 - b * sy + sy = y1 - (b - 1) * sy from by ring,
              show dx - e + e * a - dx * b + -e + dx
                  = dx - e + e * (a - 1) - dx * (b - 1) from by ring]
          exact ih (a - 1) (b - 1) (by omega) (by omega) (by omega) (by omega)
            (by omega) _ _
        · -- only x steps
          have ha1 : 1 ≤ a := by
            by_contra hc
            have ha : a = 0 := by omega
            have hb1 : 1 ≤ b := by
              rcases eq_or_ne b 0 with hb | hb
              · exact absurd ⟨ha, hb⟩ hz
              · omega
            rw [ha] at hX
            have hmul : dx * 1 ≤ dx * b := mul_le_mul_of_nonneg_left hb1 hdx
            linarith
          simp only [if_pos hX, if_neg hY]
          rw [show x1 - a * sx + sx = x1 - (a - 1) * sx from by ring,
              show dx - e + e * a - dx * b + -e
                  = dx - e + e * (a - 1) - dx * b from by ring]
          exact ih (a - 1) b (by omega) (by omega) (by omega) (by omega)
            (by omega) _ _
      · have hY : 2 * (dx - e + e * a - dx * b) ≤ dx := by linarith
        -- only y steps
        have hb1 : 1 ≤ b := by
          by_contra hc
          have hb : b = 0 := by omega
          have ha1 : 1 ≤ a := by
            rcases eq_or_ne a 0 with ha | ha
            · exact absurd ⟨ha, hb⟩ hz
            · omega
          rw [hb] at hY
          have hmul : e * 1 ≤ e * a := mul_le_mul_of_nonneg_left ha1 he
          linarith
        simp only [if_neg hX, if_pos hY]
        rw [show y1 - b * sy + sy = y1 - (b - 1) * sy from by ring,
            show dx - e + e * a - dx * b + dx
                = dx - e + e * a - dx * (b - 1) from by ring]
        exact ih a (b - 1) (by omega) (by omega) (by omega) (by omega)
          (by omega) _ _

/-! ## Raw scanline buffer and its decoding -/

theorem row_foldl (row : List Pixel) :
    ∀ bs : List Nat, row.foldl (fun bs p => bs ++ pixelBytes p) bs = bs ++ rowBytes row := by
  induction row with
  | nil => intro bs; simp [rowBytes, concatAll]
  | cons p row ih =>
    intro bs
    rw [List.foldl_cons, ih]
    simp [rowBytes, concatAll]

theorem rawData_eq_scanlines (c : Canvas) : rawData c = scanlinesSpec c := by
  rw [rawData, scanlinesSpec]
  suffices h : ∀ (rows : List (List Pixel)) (acc : List Nat),
      rows.foldl (fun acc row => acc ++ 0 :: row.foldl (fun bs p => bs ++ pixelBytes p) []) acc
        = acc ++ concatAll (rows.map (fun row => 0 :: rowBytes row)) by
    rw [h c.pixels []]
    simp
  intro rows
  induction rows with
  | nil => intro acc; simp [concatAll]
  | cons row rows ih =>
    intro acc
    rw [List.foldl_cons, row_foldl, ih]
    simp [concatAll]

theorem rowBytes_length (row : List Pixel) : (rowBytes row).length = 3 * row.length := by
  induction row with
  | nil => rfl
  | cons p row ih =>
    simp only [rowBytes, concatAll, List.map_cons, List.foldr_cons, List.length_append,
      List.length_cons] at *
    simp [pixelBytes]
    omega

theorem bytesToPixels_rowBytes (row : List Pixel) :
    bytesToPixels (rowBytes row) = some row := by
  induction row with
  | nil => rfl
  | cons p row ih =>
    rw [show rowBytes (p :: row) = p.1 :: p.2.1 :: p.2.2 :: rowBytes row from by
      simp [rowBytes, concatAll, pixelBytes]]
    rw [bytesToPixels, ih]
    rfl

theorem decode_scanlines (w : Nat) :
    ∀ rows : List (List Pixel), (∀ row ∈ rows, row.length = w) →
    decodeScanlines w rows.length (concatAll (rows.map (fun row => 0 :: rowBytes row)))
      = some rows := by
  intro rows
  induction rows with
  | nil => intro _; rfl
  | cons row rows ih =>
    intro h
    have hlen : (rowBytes row).length = 3 * w := by
      rw [rowBytes_length, h row (List.mem_cons_self row rows)]
    rw [List.map_cons,
        show concatAll ((0 :: rowBytes row) :: rows.map (fun row => 0 :: rowBytes row))
          = 0 :: (rowBytes row ++ concatAll (rows.map (fun row => 0 :: rowBytes row)))
          from rfl,
        List.length_cons]
    rw [decodeScanlines]
    rw [if_pos (by simp [hlen])]
    rw [List.take_left' hlen, List.drop_left' hlen, bytesToPixels_rowBytes,
        ih (fun r hr => h r (List.mem_cons_of_mem row hr))]

/-! ## Chunk framing and parsing -/

theorem parseChunks_nil : parseChunks [] = some [] := by
  rw [parseChunks]
  simp

theorem readBe32_be32 (n : Nat) (l : List Nat) (h : n < 2 ^ 32) :
    readBe32 (be32 n ++ l) = n := by
  simp only [be32, List.cons_append, List.nil_append, readBe32]
  omega

theorem parseChunks_chunk_cons (tag data rest : List Nat) (htag : tag.length = 4)
    (hdata : data.length < 2 ^ 32) :
    parseChunks (chunk tag data ++ rest)
      = (parseChunks rest).map
          (fun l => (tag, data, crc32 (tag ++ data) % 2 ^ 32) :: l) := by
  match tag, htag with
  | [t0, t1, t2, t3], _ =>
    rw [parseChunks]
    have hcrc : crc32 ([t0, t1, t2, t3] ++ data) % 2 ^ 32 < 2 ^ 32 :=
      Nat.mod_lt _ (by norm_num)
    have hread : readBe32 (chunk [t0, t1, t2, t3] data ++ rest) = data.length := by
      simp only [chunk, be32, List.cons_append, List.nil_append, readBe32]
      omega
    have hdrop8 : (chunk [t0, t1, t2, t3] data ++ rest).drop 8
        = data ++ (be32 (crc32 ([t0, t1, t2, t3] ++ data) % 2 ^ 32) ++ rest) := by
      simp [chunk, be32]
    have htag4 : ((chunk [t0, t1, t2, t3] data ++ rest).drop 4).take 4 = [t0, t1, t2, t3] := by
      simp [chunk, be32]
    have hlen3 : ¬((chunk [t0, t1, t2, t3] data ++ rest).drop 8).length
        < readBe32 (chunk [t0, t1, t2, t3] data ++ rest) + 4 := by
      rw [hread, hdrop8]
      simp [be32]
    rw [dif_neg (by simp [chunk, be32])]
    rw [dif_neg (by simp [chunk, be32]; omega)]
    rw [dif_neg hlen3]
    rw [hread, hdrop8, htag4]
    rw [List.take_left' rfl]
    rw [show (data ++ (be32 (crc32 ([t0, t1, t2, t3] ++ data) % 2 ^ 32) ++ rest)).drop
          data.length = be32 (crc32 ([t0, t1, t2, t3] ++ data) % 2 ^ 32) ++ rest
        from List.drop_left' rfl]
    rw [readBe32_be32 _ _ hcrc]
    rw [show (data ++ (be32 (crc32 ([t0, t1, t2, t3] ++ data) % 2 ^ 32) ++ rest)).drop
          (data.length + 4)
        = rest from by
      rw [← List.append_assoc]
      exact List.drop_left' (by simp [be32])]
    rcases hrest : parseChunks rest with - | l <;> simp

theorem parseChunks_write_png (compress : List Nat → List Nat) (c : Canvas)
    (hlen : (compress (rawData c)).length < 2 ^ 32) :
    parseChunks ((write_png compress c).drop 8)
      = some [(ihdrTag, be32 c.w.toNat ++ be32 c.h.toNat ++ [8, 2, 0, 0, 0],
               crc32 (ihdrTag ++ (be32 c.w.toNat ++ be32 c.h.toNat ++ [8, 2, 0, 0, 0]))
                 % 2 ^ 32),
              (idatTag, compress (rawData c),
               crc32 (idatTag ++ compress (rawData c)) % 2 ^ 32),
              (iendTag, [], crc32 (iendTag ++ []) % 2 ^ 32)] := by
  have hdrop : (write_png compress c).drop 8
      = chunk ihdrTag (be32 c.w.toNat ++ be32 c.h.toNat ++ [8, 2, 0, 0, 0])
        ++ (chunk idatTag (compress (rawData c)) ++ chunk iendTag []) := by
    simp [write_png, pngSignature]
  rw [hdrop]
  rw [parseChunks_chunk_cons _ _ _ (by rfl) (by norm_num [be32])]
  rw [parseChunks_chunk_cons _ _ _ (by rfl) hlen]
  rw [show chunk iendTag [] = chunk iendTag [] ++ [] from (List.append_nil _).symm]
  rw [parseChunks_chunk_cons _ _ _ (by rfl) (by norm_num)]
  rw [parseChunks_nil]
  rfl

/-! ## CRC values stay below 2^32 on byte input -/

theorem crc32Round_lt (c : Nat) (h : c < 2 ^ 32) : crc32Round c < 2 ^ 32 := by
  rw [crc32Round]
  split_ifs
  · exact Nat.xor_lt_two_pow (by omega) (by norm_num)
  · omega

theorem crc32Byte_lt (c b : Nat) (hc : c < 2 ^ 32) (hb : b < 256) :
    crc32Byte c b < 2 ^ 32 := by
  have h0 : Nat.xor c b < 2 ^ 32 := Nat.xor_lt_two_pow hc (by omega)
  rw [crc32Byte]
  exact crc32Round_lt _ (crc32Round_lt _ (crc32Round_lt _ (crc32Round_lt _
    (crc32Round_lt _ (crc32Round_lt _ (crc32Round_lt _ (crc32Round_lt _ h0)))))))

theorem crc32_lt (data : List Nat) (h : ∀ b ∈ data, b < 256) : crc32 data < 2 ^ 32 := by
  rw [crc32]
  apply Nat.xor_lt_two_pow _ (by norm_num)
  suffices hf : ∀ (l : List Nat) (acc : Nat), (∀ b ∈ l, b < 256) → acc < 2 ^ 32 →
      l.foldl crc32Byte acc < 2 ^ 32 by
    exact hf data _ h (by norm_num)
  intro l
  induction l with
  | nil => intro acc _ ha; exact ha
  | cons b l ih =>
    intro acc hl ha
    rw [List.foldl_cons]
    exact ih _ (fun x hx => hl x (List.mem_cons_of_mem _ hx))
      (crc32Byte_lt _ _ ha (hl b (List.mem_cons_self ..)))

/-! ## Claim theorems -/

/-- Claim C4: for `w, h > 0` every pixel of `Canvas.init w h` in a row with
index below `floor(3*h/4)` (truncating division) is the sky color
`(135,206,235)`, and every pixel in a row at or below that boundary is the
ground color `(189,183,107)`. -/
theorem init_sky_ground (w h : Int) (hw : 0 < w) (hh : 0 < h) (x y : Int)
    (hx0 : 0 ≤ x) (hx : x < w) (hy0 : 0 ≤ y) (hy : y < h) :
    (Canvas.init w h).get x y =
      if y < Int.tdiv (3 * h) 4 then skyColor else groundColor := by
  rw [init_get w h x y hx0 hx hy0 hy]
  generalize Int.tdiv (3 * h) 4 = t
  by_cases hc : t ≤ y
  · rw [if_pos hc, if_neg (by omega)]
  · rw [if_neg hc, if_pos (by omega)]

/-- Witness for C4: concrete corners of a 4x4 canvas (boundary row is 3). -/
theorem init_sky_ground_witness :
    (Canvas.init 4 4).get 0 0 = skyColor ∧ (Canvas.init 4 4).get 0 3 = groundColor := by
  constructor
  · have h := init_sky_ground 4 4 (by decide) (by decide) 0 0
      (by decide) (by decide) (by decide) (by decide)
    rw [h]
    decide
  · have h := init_sky_ground 4 4 (by decide) (by decide) 0 3
      (by decide) (by decide) (by decide) (by decide)
    rw [h]
    decide

/-- Counterexample to claim C5: the constructor does not fail on
non-positive dimensions — `Canvas(0, 0)` succeeds. -/
theorem create_zero_dims_succeeds : Canvas.create 0 0 ≠ none := by
  rw [Canvas.create]
  exact fun h => Option.noConfusion h

/-- Claim C5 as amended: canvas creation never fails; for every integer pair
(including `w ≤ 0` or `h ≤ 0`) it synchronously returns a canvas whose grid
has `max(h,0)` rows of `max(w,0)` pixels each. -/
theorem create_never_fails (w h : Int) :
    ∃ cv, Canvas.create w h = some cv ∧ cv.w = w ∧ cv.h = h ∧ cv.WF :=
  ⟨Canvas.init w h, rfl, rfl, rfl, init_WF w h⟩

/-- Counterexample to claim C6: pixel `(2,1)` of a 3x3 canvas satisfies the
inclusive disk inequality for `circle(1,1,1)` and is in bounds, yet it is not
painted — the scan stops at the half-open bounding box `[cx-r, cx+r)`. -/
theorem circle_iff_counterexample :
    ((Canvas.init 3 3).circle 1 1 1 (1, 2, 3)).get 2 1 ≠ (1, 2, 3) ∧
    (0 ≤ (2 : Int) ∧ (2 : Int) < (Canvas.init 3 3).w ∧
      0 ≤ (1 : Int) ∧ (1 : Int) < (Canvas.init 3 3).h) ∧
    ((2 : Int) - 1) ^ 2 + ((1 : Int) - 1) ^ 2 ≤ 1 * 1 := by
  decide

/-- Claim C6 as amended: after `circle(cx,cy,r,color)` an in-bounds pixel is
`color` exactly when it lies in the half-open bounding box
`[cx-r,cx+r) × [cy-r,cy+r)` and satisfies `(x-cx)² + (y-cy)² ≤ r²`; every
other pixel keeps its previous value, and `r ≤ 0` changes nothing. -/
theorem circle_pixels_amended (c : Canvas) (hwf : c.WF) (cx cy r : Int) (color : Pixel) :
    (∀ x y : Int, 0 ≤ x → x < c.w → 0 ≤ y → y < c.h →
      (c.circle cx cy r color).get x y =
        if cx - r ≤ x ∧ x < cx + r ∧ cy - r ≤ y ∧ y < cy + r ∧
            (x - cx) ^ 2 + (y - cy) ^ 2 ≤ r * r
        then color else c.get x y) ∧
    (r ≤ 0 → c.circle cx cy r color = c) :=
  ⟨fun x y hx0 hx hy0 hy => circle_get c hwf cx cy r color x y hx0 hx hy0 hy,
    circle_nop c cx cy r color⟩

/-- Witness for the amended C6 at a concrete canvas and disk. -/
theorem circle_pixels_amended_witness :
    ((Canvas.init 3 3).circle 1 1 1 (1, 2, 3)).get 1 1 = (1, 2, 3) := by
  have h := (circle_pixels_amended (Canvas.init 3 3) (by decide) 1 1 1 (1, 2, 3)).1 1 1
    (by decide) (by decide) (by decide) (by decide)
  rw [h]
  decide

/-- Counterexample to claim C7: on a 2x1 canvas (entirely ground colored,
since `int(1*0.75) = 0`), filling `rect(0,0,1,1)` with the ground color
leaves pixel `(1,0)` equal to the fill color even though it lies outside the
rectangle, so "equals color iff inside the rectangle" fails. -/
theorem rect_iff_counterexample :
    ((Canvas.init 2 1).rect 0 0 1 1 (189, 183, 107)).get 1 0 = (189, 183, 107) ∧
    ¬((0 : Int) ≤ 1 ∧ (1 : Int) < 1) := by
  decide

/-- Claim C7 as amended: after `rect(x0,y0,x1,y1,color)` an in-bounds pixel
inside the half-open rectangle is `color` and every other pixel keeps its
previous value (so a pixel outside equals `color` only if it already did). -/
theorem rect_pixels_amended (c : Canvas) (hwf : c.WF) (x0 y0 x1 y1 : Int) (color : Pixel) :
    ∀ x y : Int, 0 ≤ x → x < c.w → 0 ≤ y → y < c.h →
      (c.rect x0 y0 x1 y1 color).get x y =
        if x0 ≤ x ∧ x < x1 ∧ y0 ≤ y ∧ y < y1 then color else c.get x y :=
  fun x y hx0 hx hy0 hy => rect_get c hwf x0 y0 x1 y1 color x y hx0 hx hy0 hy

/-- Witness for the amended C7 at a concrete canvas and rectangle. -/
theorem rect_pixels_amended_witness :
    ((Canvas.init 4 4).rect 0 0 2 2 (1, 2, 3)).get 0 0 = (1, 2, 3) := by
  have h := rect_pixels_amended (Canvas.init 4 4) (by decide) 0 0 2 2 (1, 2, 3) 0 0
    (by decide) (by decide) (by decide) (by decide)
  rw [h]
  decide

/-- Claim C8: for every pair of integer endpoints and every canvas the
Bresenham loop of `Canvas.line` terminates (the provably sufficient fuel is
never exhausted), and the last plotted pixel is the endpoint `(x1, y1)`. -/
theorem line_terminates_at_endpoint (c : Canvas) (color : Pixel) (x0 y0 x1 y1 : Int) :
    ∃ c' pts, Canvas.line c x0 y0 x1 y1 color = some (c', pts) ∧
      pts.getLast? = some (x1, y1) := by
  have hdx : (0 : Int) ≤ |x1 - x0| := abs_nonneg _
  have he : (0 : Int) ≤ |y1 - y0| := abs_nonneg _
  have hsx : (if x0 < x1 then (1 : Int) else -1) = 1 ∨
      (if x0 < x1 then (1 : Int) else -1) = -1 := by
    by_cases h : x0 < x1 <;> simp [h]
  have hsy : (if y0 < y1 then (1 : Int) else -1) = 1 ∨
      (if y0 < y1 then (1 : Int) else -1) = -1 := by
    by_cases h : y0 < y1 <;> simp [h]
  obtain ⟨c', pts', hrun, hlast⟩ :=
    lineLoop_reaches x1 y1 |x1 - x0| |y1 - y0|
      (if x0 < x1 then (1 : Int) else -1) (if y0 < y1 then (1 : Int) else -1) color
      hdx he hsx hsy (|x1 - x0| + |y1 - y0|).toNat |x1 - x0| |y1 - y0|
      hdx le_rfl he le_rfl (by omega) c []
  have hx0e : x1 - |x1 - x0| * (if x0 < x1 then (1 : Int) else -1) = x0 := by
    by_cases h : x0 < x1
    · rw [if_pos h, mul_one, abs_of_nonneg (by omega : (0 : Int) ≤ x1 - x0)]
      ring
    · rw [if_neg h, mul_neg_one, abs_of_nonpos (by omega : x1 - x0 ≤ 0)]
      ring
  have hy0e : y1 - |y1 - y0| * (if y0 < y1 then (1 : Int) else -1) = y0 := by
    by_cases h : y0 < y1
    · rw [if_pos h, mul_one, abs_of_nonneg (by omega : (0 : Int) ≤ y1 - y0)]
      ring
    · rw [if_neg h, mul_neg_one, abs_of_nonpos (by omega : y1 - y0 ≤ 0)]
      ring
  have herr : |x1 - x0| - |y1 - y0| + |y1 - y0| * |x1 - x0| - |x1 - x0| * |y1 - y0|
      = |x1 - x0| + -|y1 - y0| := by ring
  rw [hx0e, hy0e, herr] at hrun
  simp only [Canvas.line]
  rw [show |x1 - x0| - -|y1 - y0| = |x1 - x0| + |y1 - y0| from by ring]
  exact ⟨c', pts', hrun, hlast⟩

/-- Claim C9: the PNG encoder is a pure function of the dimensions and the
pixel grid — canvases agreeing on `w`, `h` and `pixels` encode to the same
bytes for the same compressor. -/
theorem encode_deterministic (compress : List Nat → List Nat) (c1 c2 : Canvas)
    (hw : c1.w = c2.w) (hh : c1.h = c2.h) (hp : c1.pixels = c2.pixels) :
    write_png compress c1 = write_png compress c2 := by
  cases c1 with
  | mk w1 h1 p1 =>
    cases c2 with
    | mk w2 h2 p2 =>
      simp only at hw hh hp
      subst hw
      subst hh
      subst hp
      rfl

/-- Witness for C9 at two (syntactically equal) concrete canvases. -/
theorem encode_deterministic_witness :
    write_png id (Canvas.init 2 2) = write_png id (Canvas.init 2 2) :=
  encode_deterministic id (Canvas.init 2 2) (Canvas.init 2 2) rfl rfl rfl

/-- Claim C10: every mutation (`set`, `rect`, `circle`, `line`) keeps the
canvas shape invariant: `w` and `h` are unchanged, the grid still has `h`
rows of `w` pixels each (every cell a 3-component pixel, by type). -/
theorem mutation_preserves_shape (c : Canvas) (hwf : c.WF) :
    (∀ (x y : Int) (color : Pixel),
        (c.set x y color).WF ∧ (c.set x y color).w = c.w ∧ (c.set x y color).h = c.h) ∧
    (∀ (x0 y0 x1 y1 : Int) (color : Pixel),
        (c.rect x0 y0 x1 y1 color).WF ∧ (c.rect x0 y0 x1 y1 color).w = c.w ∧
          (c.rect x0 y0 x1 y1 color).h = c.h) ∧
    (∀ (cx cy r : Int) (color : Pixel),
        (c.circle cx cy r color).WF ∧ (c.circle cx cy r color).w = c.w ∧
          (c.circle cx cy r color).h = c.h) ∧
    (∀ (x0 y0 x1 y1 : Int) (color : Pixel) (c' : Canvas) (pts : List (Int × Int)),
        c.line x0 y0 x1 y1 color = some (c', pts) →
          c'.WF ∧ c'.w = c.w ∧ c'.h = c.h) := by
  refine ⟨fun x y color =>
      ⟨set_WF c hwf x y color, (set_dims c x y color).1, (set_dims c x y color).2⟩,
    fun x0 y0 x1 y1 color => ⟨rect_WF c hwf x0 y0 x1 y1 color, rfl, rfl⟩,
    fun cx cy r color => ⟨circle_WF c hwf cx cy r color, rfl, rfl⟩,
    fun x0 y0 x1 y1 color c' pts h => ?_⟩
  simp only [Canvas.line] at h
  obtain ⟨e1, e2, e3⟩ := lineLoop_preserves _ _ _ _ _ _ _ _ _ _ _ _ _ _ _ h
  exact ⟨e3 hwf, e1, e2⟩

/-- Witness for C10: a concrete mutation keeps the shape invariant. -/
theorem mutation_preserves_shape_witness :
    ((Canvas.init 2 2).rect 0 0 1 1 (1, 2, 3)).WF :=
  ((mutation_preserves_shape (Canvas.init 2 2) (by decide)).2.1 0 0 1 1 (1, 2, 3)).1

theorem WF_row_mem (c : Canvas) (hwf : c.WF) :
    ∀ row ∈ c.pixels, row.length = c.w.toNat := by
  intro row hrow
  obtain ⟨i, hi, hrow⟩ := List.mem_iff_getElem.mp hrow
  have h := hwf.2 i hi
  rw [List.getD_eq_getElem?_getD, List.getElem?_eq_getElem hi] at h
  rw [← hrow]
  simpa using h

/-- Claim C1: for a well-formed canvas and any compressor whose decompression
round-trips (the spec's binding contract for `zlib`), the IDAT payload of the
encoder output decompresses to exactly the raw scanline buffer — per row one
filter byte 0 then 3 bytes per pixel, left to right — and decoding those
scanlines reconstructs the pixel grid pixel-for-pixel. -/
theorem png_idat_roundtrip (compress decompress : List Nat → List Nat)
    (hround : ∀ bs, decompress (compress bs) = bs)
    (c : Canvas) (hwf : c.WF)
    (hlen : (compress (rawData c)).length < 2 ^ 32) :
    ∃ payload, idatPayload (write_png compress c) = some payload ∧
      decompress payload = scanlinesSpec c ∧
      decodeScanlines c.w.toNat c.h.toNat (decompress payload) = some c.pixels := by
  refine ⟨compress (rawData c), ?_, ?_, ?_⟩
  · rw [idatPayload, parseChunks_write_png compress c hlen]
    rfl
  · rw [hround, rawData_eq_scanlines]
  · rw [hround, rawData_eq_scanlines,
        show c.h.toNat = c.pixels.length from hwf.1.symm, scanlinesSpec]
    exact decode_scanlines c.w.toNat c.pixels (WF_row_mem c hwf)

/-- Witness for C1 with the identity compressor on a concrete canvas. -/
theorem png_idat_roundtrip_witness :
    ∃ payload, idatPayload (write_png id (Canvas.init 2 2)) = some payload ∧
      id payload = scanlinesSpec (Canvas.init 2 2) ∧
      decodeScanlines (Canvas.init 2 2).w.toNat (Canvas.init 2 2).h.toNat (id payload)
        = some (Canvas.init 2 2).pixels :=
  png_idat_roundtrip id id (fun _ => rfl) (Canvas.init 2 2) (by decide) (by decide)

/-- Claim C2: the encoder output is exactly the signature
`89 50 4E 47 0D 0A 1A 0A`, the IHDR chunk with 13-byte payload
`w(BE) ‖ h(BE) ‖ 8 ‖ 2 ‖ 0 ‖ 0 ‖ 0`, one IDAT chunk, and an empty IEND
chunk, in that order with nothing else. -/
theorem png_layout_exact (compress : List Nat → List Nat) (c : Canvas) :
    write_png compress c = pngLayoutSpec compress c := by
  simp [write_png, pngLayoutSpec, chunk, pngSignature, ihdrTag, idatTag, iendTag, be32]

/-- Claim C3: every chunk is framed as 4-byte big-endian payload length, the
4-byte tag, the payload, then a 4-byte big-endian CRC32 over tag+payload;
and for every chunk parsed back out of an encoded stream the stored CRC field
equals the CRC32 recomputed over its tag and payload. -/
theorem chunk_crc_valid (compress : List Nat → List Nat) (c : Canvas)
    (hlen : (compress (rawData c)).length < 2 ^ 32)
    (hbytes : ∀ b ∈ compress (rawData c), b < 256) :
    (∀ tag data : List Nat,
        chunk tag data = be32 data.length ++ tag ++ data
          ++ be32 (crc32 (tag ++ data) % 2 ^ 32)) ∧
    ∃ l, parseChunks ((write_png compress c).drop 8) = some l ∧
      ∀ e ∈ l, e.2.2 = crc32 (e.1 ++ e.2.1) := by
  refine ⟨fun tag data => rfl, _, parseChunks_write_png compress c hlen, ?_⟩
  intro e he
  simp only [List.mem_cons, List.not_mem_nil, or_false] at he
  rcases he with he | he | he <;> subst he
  · apply Nat.mod_eq_of_lt
    apply crc32_lt
    intro b hb
    simp [ihdrTag, be32] at hb
    omega
  · apply Nat.mod_eq_of_lt
    apply crc32_lt
    intro b hb
    rcases List.mem_append.mp hb with hb | hb
    · simp [idatTag] at hb
      omega
    · exact hbytes b hb
  · apply Nat.mod_eq_of_lt
    apply crc32_lt
    intro b hb
    simp [iendTag] at hb
    omega

/-- Witness for C3 with the identity compressor on a concrete canvas. -/
theorem chunk_crc_valid_witness :
    ∃ l, parseChunks ((write_png id (Canvas.init 2 2)).drop 8) = some l ∧
      ∀ e ∈ l, e.2.2 = crc32 (e.1 ++ e.2.1) :=
  (chunk_crc_valid id (Canvas.init 2 2) (by decide) (by decide)).2
